import Mathlib

set_option maxRecDepth 40000

/-!
Shallow embedding of the Battlesnake decision engine in `src/src/logic.rs`
(grid state, move application, collision tests, flood-fill territory
estimator, alpha-beta search, and the board construction in `get_move`),
together with theorems settling the specification claims about it.

Rust `i32` values are embedded as `Int`; none of the verified claims
exercises i32 overflow.  The dense grid (a flat `[i32; 13*13]` array) is
embedded as a `List Int` indexed by `(y+1)*13 + (x+1)`, matching
`DenseBoard::get_xy`.  The `while` loop of `voronoi` is embedded with an
explicit fuel counter; the termination theorem for claim C9 proves the
fuel is never exhausted.
-/

/-- Board side length, `const BOARD_SIZE: usize = 11`. -/
def BOARD_SIZE : Nat := 11

/-- Dense board side with halo, `const DENSE_BOARD_LENGTH: usize = BOARD_SIZE + 2`. -/
def DENSE_BOARD_LENGTH : Nat := BOARD_SIZE + 2

/-- Number of snakes, `const PLAYER_COUNT: usize = 2`. -/
def PLAYER_COUNT : Nat := 2

/-- Rust `i32::MAX`, used as the permanent wall sentinel stamp. -/
def I32_MAX : Int := 2147483647

/-- Rust `i32::MIN`, the initial alpha of the root alpha-beta calls. -/
def I32_MIN : Int := -2147483648

/-- Board coordinate, the `Coord` struct of the crate root. -/
structure Coord where
  x : Int
  y : Int
deriving DecidableEq, Repr

instance : Inhabited Coord := ⟨⟨0, 0⟩⟩

/-- Move direction, the `Direction` enum of the crate root. -/
inductive Direction where
  | up
  | down
  | left
  | right
deriving DecidableEq, Repr

instance : Inhabited Direction := ⟨.up⟩

/-- Dense 13 x 13 grid with a one-cell halo, `DenseBoard<i32>`. -/
structure DenseBoard where
  board : List Int
deriving DecidableEq, Repr

/-- Flat index of `(x, y)`: `(y + 1) as usize * (BOARD_SIZE + 2) + (x + 1) as usize`. -/
def denseIndex (x y : Int) : Nat :=
  (y + 1).toNat * DENSE_BOARD_LENGTH + (x + 1).toNat

/-- `DenseBoard::init`: every cell set to the default value. -/
def DenseBoard.init (dflt : Int) : DenseBoard :=
  ⟨List.replicate (DENSE_BOARD_LENGTH * DENSE_BOARD_LENGTH) dflt⟩

/-- `DenseBoard::get_xy`. -/
def DenseBoard.get_xy (b : DenseBoard) (x y : Int) : Int :=
  b.board.getD (denseIndex x y) 0

/-- Write through `DenseBoard::get_xy_mut`. -/
def DenseBoard.set_xy (b : DenseBoard) (x y : Int) (v : Int) : DenseBoard :=
  ⟨b.board.set (denseIndex x y) v⟩

/-- `DenseBoard::get_coord`. -/
def DenseBoard.get_coord (b : DenseBoard) (c : Coord) : Int :=
  b.get_xy c.x c.y

/-- Write through `DenseBoard::get_coord_mut`. -/
def DenseBoard.set_coord (b : DenseBoard) (c : Coord) (v : Int) : DenseBoard :=
  b.set_xy c.x c.y v

/-- Search-tree state, the `Node` struct: turn counter, occupancy grid,
per-snake head coordinates and body lengths, and the controlled snake's
health.  The fixed-size Rust arrays `[Coord; PLAYER_COUNT]` and
`[i32; PLAYER_COUNT]` are embedded as lists read with a default. -/
structure Node where
  turn : Int
  board : DenseBoard
  heads : List Coord
  lengths : List Int
  our_health : Int
deriving DecidableEq, Repr

/-- Read `self.heads[snake_idx]`. -/
def Node.head (n : Node) (snake_idx : Nat) : Coord :=
  n.heads.getD snake_idx default

/-- Read `self.lengths[snake_idx]`. -/
def Node.lengthAt (n : Node) (snake_idx : Nat) : Int :=
  n.lengths.getD snake_idx 0

/-- `Node::is_head_colliding_wall`: the head is on or beyond the interior
boundary (x or y at 0 or `BOARD_SIZE - 1`, inclusive). -/
def Node.is_head_colliding_wall (n : Node) (snake_idx : Nat) : Bool :=
  decide ((n.head snake_idx).x ≤ 0)
    || decide ((n.head snake_idx).x ≥ (BOARD_SIZE : Int) - 1)
    || decide ((n.head snake_idx).y ≤ 0)
    || decide ((n.head snake_idx).y ≥ (BOARD_SIZE : Int) - 1)

/-- One-cell offset in a direction (the `match direction` in `apply_move`):
Up decreases y, Down increases y, Left decreases x, Right increases x. -/
def applyDirection (c : Coord) (d : Direction) : Coord :=
  match d with
  | .up => { c with y := c.y - 1 }
  | .down => { c with y := c.y + 1 }
  | .left => { c with x := c.x - 1 }
  | .right => { c with x := c.x + 1 }

/-- `Node::apply_move`: no-op if the head is already wall-colliding;
otherwise move the head one cell and stamp the vacated cell with
`self.lengths[snake_idx] + self.turn`.  Turn and health are not touched. -/
def Node.apply_move (n : Node) (snake_idx : Nat) (direction : Direction) : Node :=
  if n.is_head_colliding_wall snake_idx then n
  else
    { n with
      heads := n.heads.set snake_idx (applyDirection (n.head snake_idx) direction)
      board := n.board.set_coord (n.head snake_idx) (n.lengthAt snake_idx + n.turn) }

/-- `Node::is_head_colliding_snake`.  The source computes a four-neighbour
disjunction and discards it (the statement ends in a semicolon), so only
the wall test and the head-cell stamp comparison determine the result. -/
def Node.is_head_colliding_snake (n : Node) (snake_idx : Nat) : Bool :=
  if n.is_head_colliding_wall snake_idx then true
  else
    decide (n.board.get_xy (n.head snake_idx).x (n.head snake_idx).y > n.turn)

/-- `Node::apply_move_array`: apply the enemy moves (snake 1 from the first
entry; the loop body for indices 2 and above is empty at `PLAYER_COUNT = 2`
and, as in the source, restarts from `self` rather than the accumulated
node), then advance the turn and decrement the controlled snake's health. -/
def Node.apply_move_array (n : Node) (directions : List Direction) : Node :=
  let node0 := n.apply_move 1 (directions.getD 0 default)
  let node1 := (List.range' 2 (PLAYER_COUNT - 2)).foldl
    (fun _node i => n.apply_move i (directions.getD (i - 1) default)) node0
  { node1 with turn := node1.turn + 1, our_health := node1.our_health - 1 }

/-- `MAGIC_NOT_OWNED` of `voronoi`. -/
def MAGIC_NOT_OWNED : Int := -1

/-- Ownership grid after the head-seeding loop of `voronoi` (both
`owned_by` and `owned_by_new` are seeded identically, so a single grid is
threaded; they are equal again at the top of every round). -/
def voronoiInitOwned (node : Node) : DenseBoard :=
  node.heads.enum.foldl (fun ob p => ob.set_coord p.2 (p.1 : Int))
    (DenseBoard.init MAGIC_NOT_OWNED)

/-- Interior scan order of a round: `for x in 0..BOARD_SIZE { for y in 0..BOARD_SIZE }`. -/
def interiorCells : List Coord :=
  (List.range BOARD_SIZE).flatMap
    (fun x => (List.range BOARD_SIZE).map (fun y => ⟨(x : Int), (y : Int)⟩))

/-- The `tests` array of a cell, in source order. -/
def voronoiTests (c : Coord) : List Coord :=
  [⟨c.x - 1, c.y⟩, ⟨c.x + 1, c.y⟩, ⟨c.x, c.y - 1⟩, ⟨c.x, c.y + 1⟩]

/-- Mutable state threaded through one expansion round: the grid being
written (`owned_by_new`), the score accumulators, and the `not_done` flag. -/
structure RoundState where
  ownedNew : DenseBoard
  scores : List Int
  notDone : Bool
deriving DecidableEq, Repr

/-- Body of the innermost `for test in tests` loop of `voronoi`: reads go
to the old grid `owned`, the write goes to `st.ownedNew`, and the score of
the owning neighbour is incremented. -/
def voronoiTestStep (node : Node) (owned : DenseBoard) (c : Coord)
    (st : RoundState) (t : Coord) : RoundState :=
  if node.board.get_coord c - node.turn ≤ 0
      ∧ owned.get_coord t ≠ MAGIC_NOT_OWNED
      ∧ owned.get_coord c = MAGIC_NOT_OWNED then
    { ownedNew := st.ownedNew.set_coord c (owned.get_coord t)
      scores := st.scores.set (owned.get_coord t).toNat
        (st.scores.getD (owned.get_coord t).toNat 0 + 1)
      notDone := true }
  else st

/-- One full expansion round (one iteration of the `while not_done` loop
body): scan every interior cell and its four tests. -/
def voronoiRound (node : Node) (owned : DenseBoard) (scores : List Int) : RoundState :=
  interiorCells.foldl
    (fun st c => (voronoiTests c).foldl (fun st2 t => voronoiTestStep node owned c st2 t) st)
    { ownedNew := owned, scores := scores, notDone := false }

/-- The `while not_done` loop of `voronoi`, with explicit fuel.  Claim C9
proves the fuel is never exhausted from the initial budget. -/
def voronoiLoop (node : Node) : DenseBoard → List Int → Nat → Option (DenseBoard × List Int)
  | _, _, 0 => none
  | owned, scores, fuel + 1 =>
    let st := voronoiRound node owned scores
    if st.notDone then voronoiLoop node st.ownedNew st.scores fuel
    else some (st.ownedNew, st.scores)

/-- Fuel budget: one more than the number of grid cells. -/
def VORONOI_FUEL : Nat := DENSE_BOARD_LENGTH * DENSE_BOARD_LENGTH + 1

/-- Final loop state of `voronoi` (ownership grid and scores). -/
def voronoiFull (node : Node) : DenseBoard × List Int :=
  (voronoiLoop node (voronoiInitOwned node) (List.replicate PLAYER_COUNT 0)
      VORONOI_FUEL).getD
    (DenseBoard.init MAGIC_NOT_OWNED, List.replicate PLAYER_COUNT 0)

/-- `voronoi`: the per-snake territory scores. -/
def voronoi (node : Node) : List Int :=
  (voronoiFull node).2

/-- Terminal-loss condition of `Node::evaluate`: wall collision, body
collision, or health at or below 2. -/
def Node.lossCondition (n : Node) : Bool :=
  n.is_head_colliding_wall 0 || n.is_head_colliding_snake 0 || decide (n.our_health ≤ 2)

/-- `Node::evaluate`: a large negative constant plus the turn on a
terminal loss, otherwise twice our territory minus everyone's total. -/
def Node.evaluate (n : Node) : Int :=
  if n.lossCondition then -1000000000 + n.turn
  else 2 * (voronoi n).getD 0 0 - (voronoi n).sum

/-- The direction list iterated by the search, in source order. -/
def directionsList : List Direction := [.up, .down, .left, .right]

/-- The enemy joint-move builder of the minimizing ply: starting from the
singleton empty combination, extend by every direction once per enemy. -/
def enemyTurnsAux : Nat → List (List Direction) → List (List Direction)
  | 0, acc => acc
  | k + 1, acc => enemyTurnsAux k (acc.flatMap (fun et => directionsList.map (fun m => et ++ [m])))

/-- `enemy_turns` as built in `alphabeta` (`heads.len() - 1` extensions). -/
def Node.enemy_turns (n : Node) : List (List Direction) :=
  enemyTurnsAux (n.heads.length - 1) [[]]

/-- The maximizing-ply loop of `alphabeta`: take the running maximum,
break once `value >= beta`, then raise alpha. -/
def abMaxLoop (f : Node → Int → Int → Int) : List Node → Int → Int → Int → Int
  | [], _, _, value => value
  | c :: cs, alpha, beta, value =>
    let v := max value (f c alpha beta)
    if beta ≤ v then v
    else abMaxLoop f cs (max alpha v) beta v

/-- The minimizing-ply loop of `alphabeta`: take the running minimum,
break once `value <= alpha`, then lower beta. -/
def abMinLoop (f : Node → Int → Int → Int) : List Node → Int → Int → Int → Int
  | [], _, _, value => value
  | c :: cs, alpha, beta, value =>
    let v := min value (f c alpha beta)
    if v ≤ alpha then v
    else abMinLoop f cs alpha (min beta v) v

/-- `alphabeta`: depth-bounded alpha-beta with running values seeded at
-10000 (maximizing) and 10000 (minimizing), exactly as in the source. -/
def alphabeta : Node → Nat → Int → Int → Bool → Int
  | node, 0, _, _, _ => node.evaluate
  | node, depth + 1, alpha, beta, true =>
    abMaxLoop (fun c a b => alphabeta c depth a b false)
      (directionsList.map (fun d => node.apply_move 0 d)) alpha beta (-10000)
  | node, depth + 1, alpha, beta, false =>
    abMinLoop (fun c a b => alphabeta c depth a b true)
      (node.enemy_turns.map (fun ds => node.apply_move_array ds)) alpha beta 10000

/-- The seeded, unpruned minimax obtained from `alphabeta` by deleting the
alpha-beta bookkeeping and the two `break`s while keeping the running-value
seeds -10000 and 10000.  Claim C1 (amended) proves `alphabeta` computes
exactly this. -/
def minimaxSeeded : Node → Nat → Bool → Int
  | node, 0, _ => node.evaluate
  | node, depth + 1, true =>
    (directionsList.map (fun d => node.apply_move 0 d)).foldl
      (fun value c => max value (minimaxSeeded c depth false)) (-10000)
  | node, depth + 1, false =>
    (node.enemy_turns.map (fun ds => node.apply_move_array ds)).foldl
      (fun value c => min value (minimaxSeeded c depth true)) 10000

/-- Modelled from the spec wording of claim C1: the plain unpruned minimax,
the maximizing ply taking the true maximum over the controlled agent's four
direction values and the minimizing ply the true minimum over the enemy
joint-move values, with the same leaf evaluation and no seeds. -/
def minimaxSpec : Node → Nat → Bool → Int
  | node, 0, _ => node.evaluate
  | node, depth + 1, true =>
    match directionsList.map (fun d => minimaxSpec (node.apply_move 0 d) depth false) with
    | [] => 0
    | v :: vs => vs.foldl max v
  | node, depth + 1, false =>
    match node.enemy_turns.map (fun ds => minimaxSpec (node.apply_move_array ds) depth true) with
    | [] => 0
    | v :: vs => vs.foldl min v

/-- Modelled from the spec: the logically opposite cardinal direction used
by the round-trip property of claim C5. -/
def Direction.opposite : Direction → Direction
  | .up => .down
  | .down => .up
  | .left => .right
  | .right => .left

/-- Body-stamping loop of `get_move`: each segment at offset `i` from the
head is stamped with `turn + body.len() - i`. -/
def stampBody (turn : Int) (b : DenseBoard) (body : List Coord) : DenseBoard :=
  body.enum.foldl
    (fun bb p => bb.set_coord p.2 (turn + (body.length : Int) - (p.1 : Int))) b

/-- Per-snake part of the board-building loop of `get_move`: stamp the
whole body, then re-stamp the head cell (`body[0]`) with 0. -/
def stampSnakeFromSnapshot (turn : Int) (b : DenseBoard) (body : List Coord) : DenseBoard :=
  (stampBody turn b body).set_coord (body.headD default) 0

/-- The occupancy grid of `get_move` before the wall loops. -/
def buildOccupancy (turn : Int) (snakes : List (List Coord)) : DenseBoard :=
  snakes.foldl (stampSnakeFromSnapshot turn) (DenseBoard.init 0)

/-- The halo coordinate range `-1..(BOARD_SIZE + 1)` of the wall loops. -/
def haloRange : List Int :=
  (List.range (BOARD_SIZE + 2)).map (fun k => (k : Int) - 1)

/-- The two wall loops of `get_move`: stamp the halo ring with `i32::MAX`. -/
def addWalls (b : DenseBoard) : DenseBoard :=
  let b1 := haloRange.foldl
    (fun bb x => (bb.set_xy x (-1) I32_MAX).set_xy x (BOARD_SIZE : Int) I32_MAX) b
  haloRange.foldl
    (fun bb y => (bb.set_xy (-1) y I32_MAX).set_xy (BOARD_SIZE : Int) y I32_MAX) b1

/-- The full occupancy grid built by `get_move` from a snapshot. -/
def buildBoardFromSnapshot (turn : Int) (snakes : List (List Coord)) : DenseBoard :=
  addWalls (buildOccupancy turn snakes)

/-- The root `Node` built by `get_move` (note `Node::new` zeroes the
lengths; the snapshot lengths are never copied in). -/
def buildNode (turn : Int) (snakes : List (List Coord)) (health : Int) : Node :=
  { turn := turn
    board := buildBoardFromSnapshot turn snakes
    heads := snakes.map (fun body => body.headD default)
    lengths := List.replicate PLAYER_COUNT 0
    our_health := health }

/-- An interior coordinate of the playable 11 x 11 board. -/
def inInterior (c : Coord) : Prop :=
  0 ≤ c.x ∧ c.x ≤ 10 ∧ 0 ≤ c.y ∧ c.y ≤ 10

instance (c : Coord) : Decidable (inInterior c) := by
  unfold inInterior; infer_instance

/-- A coordinate addressable in the dense grid (interior or halo ring). -/
def inHalo (c : Coord) : Prop :=
  -1 ≤ c.x ∧ c.x ≤ 11 ∧ -1 ≤ c.y ∧ c.y ≤ 11

instance (c : Coord) : Decidable (inHalo c) := by
  unfold inHalo; infer_instance

/-- Empty walled board: all interior cells 0, halo ring at the sentinel. -/
def emptyWalledBoard : DenseBoard :=
  addWalls (DenseBoard.init 0)

/-- The open 3 x 3 region used by the concrete voronoi nodes. -/
def openCellsC6 : List Coord :=
  [⟨4, 4⟩, ⟨4, 5⟩, ⟨4, 6⟩, ⟨5, 4⟩, ⟨5, 5⟩, ⟨5, 6⟩, ⟨6, 4⟩, ⟨6, 5⟩, ⟨6, 6⟩]

/-- A left-right mirror-symmetric board whose only open cells are the
3 x 3 block with corners (4,4) and (6,6); every other interior cell is
stamped far in the future, and the halo ring carries the wall sentinel. -/
def blockedBoardC6 : DenseBoard :=
  interiorCells.foldl
    (fun b c => if c ∈ openCellsC6 then b else b.set_coord c 1000000)
    emptyWalledBoard

/-- Mirror-symmetric two-snake state: heads (4,4) and (6,4) on
`blockedBoardC6`, full health, turn 0. -/
def cnodeC6 : Node :=
  { turn := 0
    board := blockedBoardC6
    heads := [⟨4, 4⟩, ⟨6, 4⟩]
    lengths := [0, 0]
    our_health := 100 }

/-- Terminal-loss concrete state for the C1 counterexample: health 0, so
every leaf below it evaluates to the terminal-loss score. -/
def cnodeC1 : Node :=
  { turn := 0
    board := emptyWalledBoard
    heads := [⟨5, 5⟩, ⟨2, 2⟩]
    lengths := [3, 3]
    our_health := 0 }

/-- Concrete state for the C5 counterexample: the controlled head sits one
cell away from the interior boundary, on an otherwise empty board. -/
def cnodeC5 : Node :=
  { turn := 0
    board := emptyWalledBoard
    heads := [⟨1, 5⟩, ⟨8, 8⟩]
    lengths := [3, 3]
    our_health := 100 }

/-- Terminal-loss concrete state (health 0) at turn 50 for the C7 witness. -/
def cnodeC7loss : Node :=
  { turn := 50
    board := emptyWalledBoard
    heads := [⟨5, 5⟩, ⟨2, 2⟩]
    lengths := [3, 3]
    our_health := 0 }

/-- Reading another index than the one written is unchanged. -/
theorem getD_set_of_ne {α} (l : List α) (i j : Nat) (v d : α) (h : i ≠ j) :
    (l.set i v).getD j d = l.getD j d := by
  induction l generalizing i j with
  | nil => simp
  | cons a as ih =>
    cases i with
    | zero =>
      cases j with
      | zero => exact absurd rfl h
      | succ j => simp [List.getD]
    | succ i =>
      cases j with
      | zero => simp [List.getD]
      | succ j => simpa [List.getD] using ih i j (by omega)

/-- Reading an in-range index just written returns the written value. -/
theorem getD_set_eq_of_lt {α} (l : List α) (i : Nat) (v d : α) (h : i < l.length) :
    (l.set i v).getD i d = v := by
  induction l generalizing i with
  | nil => simp at h
  | cons a as ih =>
    cases i with
    | zero => simp [List.getD]
    | succ i => simpa [List.getD] using ih i (by simpa using h)

/-- Claim C3: when the head of the addressed agent already lies on the
wall-adjacent interior boundary (x or y at 0 or `BOARD_SIZE - 1` or
beyond), `apply_move` returns the input state unchanged in every field,
raising no error.  Theorem for claim C3. -/
theorem C3_apply_move_noop (n : Node) (i : Nat) (d : Direction)
    (h : (n.head i).x ≤ 0 ∨ (n.head i).x ≥ (BOARD_SIZE : Int) - 1
      ∨ (n.head i).y ≤ 0 ∨ (n.head i).y ≥ (BOARD_SIZE : Int) - 1) :
    n.apply_move i d = n := by
  have hw : n.is_head_colliding_wall i = true := by
    unfold Node.is_head_colliding_wall
    rcases h with h | h | h | h <;> simp [h]
  simp [Node.apply_move, hw]

/-- Witness for claim C3 at a concrete boundary state. -/
def cnodeC3 : Node :=
  { turn := 0
    board := emptyWalledBoard
    heads := [⟨0, 5⟩, ⟨2, 2⟩]
    lengths := [3, 3]
    our_health := 100 }

/-- Witness instantiating the C3 theorem at a concrete state whose head
is on the left boundary. -/
theorem C3_apply_move_noop_witness : cnodeC3.apply_move 0 .up = cnodeC3 :=
  C3_apply_move_noop cnodeC3 0 .up (by decide)

/-- Claim C4: `is_head_colliding_snake` is true exactly when the occupancy
stamp at the agent head is strictly greater than the current turn or the
wall test holds; and the result depends only on the turn, the head
coordinate, and the stamp stored at the head cell, so the stamps of the
cells adjacent to the head have no effect.  Theorem for claim C4. -/
theorem C4_colliding_snake_iff (n : Node) (i : Nat) :
    (n.is_head_colliding_snake i = true ↔
      (n.board.get_coord (n.head i) > n.turn ∨ n.is_head_colliding_wall i = true))
    ∧ ∀ m : Node, m.turn = n.turn → m.head i = n.head i →
        m.board.get_coord (m.head i) = n.board.get_coord (n.head i) →
        m.is_head_colliding_snake i = n.is_head_colliding_snake i := by
  constructor
  · by_cases hw : n.is_head_colliding_wall i = true
    · simp [Node.is_head_colliding_snake, hw]
    · simp [Node.is_head_colliding_snake, hw, DenseBoard.get_coord]
  · intro m h1 h2 h3
    have hw : m.is_head_colliding_wall i = n.is_head_colliding_wall i := by
      unfold Node.is_head_colliding_wall
      rw [h2]
    simp only [DenseBoard.get_coord] at h3
    rw [h2] at h3
    unfold Node.is_head_colliding_snake
    rw [hw, h1, h2, h3]

/-- Concrete state for the C4 witness: stamp 9 at the head cell, turn 5. -/
def cnodeC4 : Node :=
  { turn := 5
    board := emptyWalledBoard.set_coord ⟨5, 5⟩ 9
    heads := [⟨5, 5⟩, ⟨2, 2⟩]
    lengths := [3, 3]
    our_health := 100 }

/-- Concrete companion for the C4 witness: same turn, head and head-cell
stamp as `cnodeC4`, but different stamps on every cell adjacent to the
head and a different health. -/
def cnodeC4b : Node :=
  { turn := 5
    board := (((emptyWalledBoard.set_coord ⟨5, 5⟩ 9).set_coord ⟨4, 5⟩ 77).set_coord
        ⟨6, 5⟩ 78).set_coord ⟨5, 4⟩ 79 |>.set_coord ⟨5, 6⟩ 80
    heads := [⟨5, 5⟩, ⟨2, 2⟩]
    lengths := [0, 0]
    our_health := 1 }

/-- Witness instantiating the C4 theorem: changing every neighbour stamp
leaves the collision result unchanged. -/
theorem C4_colliding_snake_iff_witness :
    cnodeC4b.is_head_colliding_snake 0 = cnodeC4.is_head_colliding_snake 0 :=
  (C4_colliding_snake_iff cnodeC4 0).2 cnodeC4b (by decide) (by decide) (by decide)

/-- Claim C5 (amended): if the coordinate the head moves to is not itself
on the wall boundary, applying a move and then the logically opposite move
returns the controlled agent head to its original coordinate.  Theorem for
claim C5. -/
theorem head_after_apply_move (m : Node) (e : Direction)
    (hm : m.is_head_colliding_wall 0 = false) (hne : m.heads ≠ []) :
    (m.apply_move 0 e).head 0 = applyDirection (m.head 0) e := by
  unfold Node.apply_move
  rw [hm]
  simp only [Bool.false_eq_true, if_false, Node.head]
  exact getD_set_eq_of_lt _ 0 _ _ (List.length_pos.mpr hne)

theorem C5_round_trip (n : Node) (d : Direction)
    (h : (n.apply_move 0 d).is_head_colliding_wall 0 = false) :
    ((n.apply_move 0 d).apply_move 0 d.opposite).head 0 = n.head 0 := by
  by_cases hw : n.is_head_colliding_wall 0 = true
  · rw [show n.apply_move 0 d = n from by simp [Node.apply_move, hw]] at h
    rw [hw] at h
    cases h
  · have hb : n.is_head_colliding_wall 0 = false := by
      revert hw
      cases n.is_head_colliding_wall 0 <;> simp
    have hne : n.heads ≠ [] := by
      intro hnil
      have hhd : n.head 0 = ⟨0, 0⟩ := by
        rw [Node.head, hnil]
        rfl
      have hcoll : n.is_head_colliding_wall 0 = true := by
        unfold Node.is_head_colliding_wall
        rw [hhd]
        rfl
      rw [hcoll] at hb
      cases hb
    have hheads : (n.apply_move 0 d).heads =
        n.heads.set 0 (applyDirection (n.head 0) d) := by
      simp [Node.apply_move, hb]
    have hne2 : (n.apply_move 0 d).heads ≠ [] := by
      intro hnil
      rw [hheads] at hnil
      have := congrArg List.length hnil
      simp at this
      exact hne this
    have h1 := head_after_apply_move n d hb hne
    have h2 := head_after_apply_move (n.apply_move 0 d) d.opposite h hne2
    rw [h2, h1]
    cases hc : n.head 0 with
    | mk cx cy =>
      cases d <;> simp [applyDirection, Direction.opposite]

/-- Witness instantiating the C5 theorem at a central head position. -/
theorem C5_round_trip_witness :
    ((cnodeC4.apply_move 0 .left).apply_move 0 Direction.left.opposite).head 0 =
      cnodeC4.head 0 :=
  C5_round_trip cnodeC4 .left (by decide)

/-- Claim C7: for terminal-loss states the evaluation is the large
negative constant plus the turn, so among two losses differing in their
turn the later one scores strictly higher; a non-terminal state evaluates
to twice the controlled agent territory minus the total territory.
Theorem for claim C7. -/
theorem C7_evaluate_order :
    (∀ (n : Node) (t2 : Int), n.lossCondition = true →
        Node.lossCondition { n with turn := t2 } = true → t2 < n.turn →
        Node.evaluate { n with turn := t2 } < n.evaluate)
    ∧ ∀ n : Node, n.lossCondition = false →
        n.evaluate = 2 * (voronoi n).getD 0 0 - (voronoi n).sum := by
  constructor
  · intro n t2 h1 h2 h3
    simp only [Node.evaluate, h1, h2, if_true]
    omega
  · intro n h
    simp [Node.evaluate, h]

/-- Witness instantiating the C7 theorem: an earlier loss scores strictly
below the same loss at turn 50, and a concrete non-terminal state
evaluates to the territory differential. -/
theorem C7_evaluate_order_witness :
    Node.evaluate { cnodeC7loss with turn := 10 } < cnodeC7loss.evaluate ∧
      cnodeC6.evaluate = 2 * (voronoi cnodeC6).getD 0 0 - (voronoi cnodeC6).sum :=
  ⟨C7_evaluate_order.1 cnodeC7loss 10 (by decide) (by decide) (by decide),
    C7_evaluate_order.2 cnodeC6 (by decide)⟩

/-- Claim C8: away from the boundary, `apply_move` changes exactly the
moved agent head and the single occupancy cell the head leaves (stamped
with `lengths[i] + turn`); turn, health, lengths, and every other agent
head are unchanged.  Theorem for claim C8. -/
theorem C8_apply_move_frame (n : Node) (i : Nat) (d : Direction)
    (h : n.is_head_colliding_wall i = false) :
    (n.apply_move i d).turn = n.turn ∧
    (n.apply_move i d).our_health = n.our_health ∧
    (n.apply_move i d).lengths = n.lengths ∧
    (n.apply_move i d).heads = n.heads.set i (applyDirection (n.head i) d) ∧
    (∀ j, j ≠ i → (n.apply_move i d).head j = n.head j) ∧
    (n.apply_move i d).board = n.board.set_coord (n.head i) (n.lengthAt i + n.turn) := by
  have hmove : n.apply_move i d =
      { n with
        heads := n.heads.set i (applyDirection (n.head i) d)
        board := n.board.set_coord (n.head i) (n.lengthAt i + n.turn) } := by
    simp [Node.apply_move, h]
  refine ⟨by rw [hmove], by rw [hmove], by rw [hmove], by rw [hmove], ?_, by rw [hmove]⟩
  intro j hj
  rw [hmove, Node.head, Node.head]
  exact getD_set_of_ne _ i j _ _ (fun he => hj he.symm)

/-- Witness instantiating the C8 frame theorem at a concrete interior
state and move. -/
theorem C8_apply_move_frame_witness :
    (cnodeC4.apply_move 0 .right).turn = cnodeC4.turn ∧
    (cnodeC4.apply_move 0 .right).our_health = cnodeC4.our_health ∧
    (cnodeC4.apply_move 0 .right).lengths = cnodeC4.lengths ∧
    (cnodeC4.apply_move 0 .right).heads =
      cnodeC4.heads.set 0 (applyDirection (cnodeC4.head 0) .right) ∧
    (∀ j, j ≠ 0 → (cnodeC4.apply_move 0 .right).head j = cnodeC4.head j) ∧
    (cnodeC4.apply_move 0 .right).board =
      cnodeC4.board.set_coord (cnodeC4.head 0) (cnodeC4.lengthAt 0 + cnodeC4.turn) :=
  C8_apply_move_frame cnodeC4 0 .right (by decide)

/-- Fail-soft approximation relation: `r` is the value a windowed search
returned, `m` the exact (unpruned) value.  Failing low gives an upper
bound, failing high a lower bound, and a value strictly inside the window
is exact. -/
def ABApprox (r m alpha beta : Int) : Prop :=
  (r ≤ alpha → m ≤ r) ∧ (beta ≤ r → r ≤ m) ∧ (alpha < r → r < beta → r = m)

theorem foldlMax_ge_seed (g : Node → Int) :
    ∀ (cs : List Node) (v : Int), v ≤ cs.foldl (fun acc c => max acc (g c)) v := by
  intro cs
  induction cs with
  | nil => intro v; simp
  | cons c cs ih =>
    intro v
    simpa using le_trans (le_max_left v (g c)) (ih (max v (g c)))

theorem foldlMax_max (g : Node → Int) :
    ∀ (cs : List Node) (a b : Int),
      cs.foldl (fun acc c => max acc (g c)) (max a b) =
        max a (cs.foldl (fun acc c => max acc (g c)) b) := by
  intro cs
  induction cs with
  | nil => intro a b; simp
  | cons c cs ih =>
    intro a b
    simp only [List.foldl_cons]
    rw [max_assoc, ih]

theorem foldlMin_le_seed (g : Node → Int) :
    ∀ (cs : List Node) (v : Int), cs.foldl (fun acc c => min acc (g c)) v ≤ v := by
  intro cs
  induction cs with
  | nil => intro v; simp
  | cons c cs ih =>
    intro v
    simpa using le_trans (ih (min v (g c))) (min_le_left v (g c))

theorem foldlMin_min (g : Node → Int) :
    ∀ (cs : List Node) (a b : Int),
      cs.foldl (fun acc c => min acc (g c)) (min a b) =
        min a (cs.foldl (fun acc c => min acc (g c)) b) := by
  intro cs
  induction cs with
  | nil => intro a b; simp
  | cons c cs ih =>
    intro a b
    simp only [List.foldl_cons]
    rw [min_assoc, ih]

theorem abMaxLoop_ge_seed (f : Node → Int → Int → Int) :
    ∀ (cs : List Node) (alpha beta v : Int), v ≤ abMaxLoop f cs alpha beta v := by
  intro cs
  induction cs with
  | nil => intro alpha beta v; simp [abMaxLoop]
  | cons c cs ih =>
    intro alpha beta v
    simp only [abMaxLoop]
    split
    · exact le_max_left v (f c alpha beta)
    · exact le_trans (le_max_left v (f c alpha beta)) (ih _ _ _)

theorem abMinLoop_le_seed (f : Node → Int → Int → Int) :
    ∀ (cs : List Node) (alpha beta v : Int), abMinLoop f cs alpha beta v ≤ v := by
  intro cs
  induction cs with
  | nil => intro alpha beta v; simp [abMinLoop]
  | cons c cs ih =>
    intro alpha beta v
    simp only [abMinLoop]
    split
    · exact min_le_left v (f c alpha beta)
    · exact le_trans (ih _ _ _) (min_le_left v (f c alpha beta))

theorem abMaxLoop_approx (f : Node → Int → Int → Int) (g : Node → Int)
    (hf : ∀ (c : Node) (a b : Int), a < b → ABApprox (f c a b) (g c) a b) :
    ∀ (cs : List Node) (alpha beta v : Int), alpha < beta →
      ABApprox (abMaxLoop f cs alpha beta v)
        (cs.foldl (fun acc c => max acc (g c)) v) alpha beta := by
  intro cs
  induction cs with
  | nil =>
    intro alpha beta v _
    simp only [abMaxLoop, List.foldl_nil]
    exact ⟨fun _ => le_refl v, fun _ => le_refl v, fun _ _ => rfl⟩
  | cons c cs ih =>
    intro alpha beta v hab
    simp only [abMaxLoop, List.foldl_cons]
    have hfc := hf c alpha beta hab
    set w := f c alpha beta with hw_def
    set mc := g c with hmc_def
    by_cases hb : beta ≤ max v w
    · rw [if_pos hb]
      refine ⟨fun hra => absurd hab (by omega), ?_, fun _ hrb => absurd hab (by omega)⟩
      intro _
      rcases max_cases v w with ⟨hm, _⟩ | ⟨hm, _⟩
      · rw [hm]
        exact le_trans (le_max_left v mc) (foldlMax_ge_seed g cs _)
      · rw [hm]
        have hbw : beta ≤ w := hm ▸ hb
        exact le_trans (le_trans (hfc.2.1 hbw) (le_max_right v mc)) (foldlMax_ge_seed g cs _)
    · rw [if_neg hb]
      push_neg at hb
      have hab2 : max alpha (max v w) < beta := max_lt hab hb
      have ihh := ih (max alpha (max v w)) beta (max v w) hab2
      have hr_ge : max v w ≤ abMaxLoop f cs (max alpha (max v w)) beta (max v w) :=
        abMaxLoop_ge_seed f cs _ _ _
      set r := abMaxLoop f cs (max alpha (max v w)) beta (max v w) with hrdef
      by_cases hwa : w ≤ alpha
      · have hmcw : mc ≤ w := hfc.1 hwa
        have e1 : cs.foldl (fun acc c2 => max acc (g c2)) (max v w) =
            max w (cs.foldl (fun acc c2 => max acc (g c2)) v) := by
          rw [max_comm v w, foldlMax_max]
        have e2 : cs.foldl (fun acc c2 => max acc (g c2)) (max v mc) =
            max mc (cs.foldl (fun acc c2 => max acc (g c2)) v) := by
          rw [max_comm v mc, foldlMax_max]
        set N := cs.foldl (fun acc c2 => max acc (g c2)) v with hN
        rw [e2]
        rw [e1] at ihh
        refine ⟨?_, ?_, ?_⟩
        · intro hra
          have h1 := ihh.1 (le_trans hra (le_max_left _ _))
          exact le_trans (max_le_max hmcw (le_refl N)) h1
        · intro hrb
          have h1 := ihh.2.1 hrb
          rcases max_cases w N with ⟨hm, _⟩ | ⟨hm, _⟩
          · rw [hm] at h1
            exfalso
            omega
          · rw [hm] at h1
            exact le_trans h1 (le_max_right mc N)
        · intro hra hrb
          by_cases hr2 : max alpha (max v w) < r
          · have heq := ihh.2.2 hr2 hrb
            rcases max_cases w N with ⟨hm, _⟩ | ⟨hm, _⟩
            · rw [hm] at heq
              exfalso
              omega
            · rw [hm] at heq
              have hmcN : mc ≤ N := by omega
              rw [max_eq_right hmcN, heq]
          · push_neg at hr2
            have hM_le := ihh.1 hr2
            have hrvw : r = max v w := by
              rcases max_cases alpha (max v w) with ⟨hm, _⟩ | ⟨hm, _⟩
              · rw [hm] at hr2
                exfalso
                omega
              · rw [hm] at hr2
                exact le_antisymm hr2 hr_ge
            have hrv : r = v := by
              rcases max_cases v w with ⟨hm, _⟩ | ⟨hm, _⟩
              · rw [hrvw, hm]
              · exfalso
                rw [hm] at hrvw
                omega
            have hNv : r ≤ N := hrv ▸ foldlMax_ge_seed g cs v
            have h5 : max mc N ≤ r := le_trans (max_le_max hmcw (le_refl N)) hM_le
            have h6 : r ≤ max mc N := le_trans hNv (le_max_right mc N)
            exact le_antisymm h6 h5
      · push_neg at hwa
        have hwb : w < beta := lt_of_le_of_lt (le_max_right v w) hb
        have hweq : w = mc := hfc.2.2 hwa hwb
        rw [← hweq]
        refine ⟨?_, ?_, ?_⟩
        · intro hra
          exact ihh.1 (le_trans hra (le_max_left _ _))
        · intro hrb
          exact ihh.2.1 hrb
        · intro hra hrb
          by_cases hr2 : max alpha (max v w) < r
          · exact ihh.2.2 hr2 hrb
          · push_neg at hr2
            have hM_le := ihh.1 hr2
            have hrvw : r = max v w := by
              rcases max_cases alpha (max v w) with ⟨hm, _⟩ | ⟨hm, _⟩
              · rw [hm] at hr2
                exfalso
                omega
              · rw [hm] at hr2
                exact le_antisymm hr2 hr_ge
            exact le_antisymm (hrvw ▸ foldlMax_ge_seed g cs (max v w)) hM_le

theorem abMinLoop_approx (f : Node → Int → Int → Int) (g : Node → Int)
    (hf : ∀ (c : Node) (a b : Int), a < b → ABApprox (f c a b) (g c) a b) :
    ∀ (cs : List Node) (alpha beta v : Int), alpha < beta →
      ABApprox (abMinLoop f cs alpha beta v)
        (cs.foldl (fun acc c => min acc (g c)) v) alpha beta := by
  intro cs
  induction cs with
  | nil =>
    intro alpha beta v _
    simp only [abMinLoop, List.foldl_nil]
    exact ⟨fun _ => le_refl v, fun _ => le_refl v, fun _ _ => rfl⟩
  | cons c cs ih =>
    intro alpha beta v hab
    simp only [abMinLoop, List.foldl_cons]
    have hfc := hf c alpha beta hab
    set w := f c alpha beta with hw_def
    set mc := g c with hmc_def
    by_cases ha : min v w ≤ alpha
    · rw [if_pos ha]
      refine ⟨?_, fun hrb => absurd hab (by omega), fun hra _ => absurd hab (by omega)⟩
      intro _
      rcases min_cases v w with ⟨hm, _⟩ | ⟨hm, _⟩
      · rw [hm]
        exact le_trans (foldlMin_le_seed g cs _) (min_le_left v mc)
      · rw [hm]
        have hwa : w ≤ alpha := hm ▸ ha
        exact le_trans (foldlMin_le_seed g cs _) (le_trans (min_le_right v mc) (hfc.1 hwa))
    · rw [if_neg ha]
      push_neg at ha
      have hab2 : alpha < min beta (min v w) := lt_min hab ha
      have ihh := ih alpha (min beta (min v w)) (min v w) hab2
      have hr_le : abMinLoop f cs alpha (min beta (min v w)) (min v w) ≤ min v w :=
        abMinLoop_le_seed f cs _ _ _
      set r := abMinLoop f cs alpha (min beta (min v w)) (min v w) with hrdef
      by_cases hwb : beta ≤ w
      · have hmcw : w ≤ mc := hfc.2.1 hwb
        have e1 : cs.foldl (fun acc c2 => min acc (g c2)) (min v w) =
            min w (cs.foldl (fun acc c2 => min acc (g c2)) v) := by
          rw [min_comm v w, foldlMin_min]
        have e2 : cs.foldl (fun acc c2 => min acc (g c2)) (min v mc) =
            min mc (cs.foldl (fun acc c2 => min acc (g c2)) v) := by
          rw [min_comm v mc, foldlMin_min]
        set N := cs.foldl (fun acc c2 => min acc (g c2)) v with hN
        rw [e2]
        rw [e1] at ihh
        refine ⟨?_, ?_, ?_⟩
        · intro hra
          have h1 := ihh.1 hra
          rcases min_cases w N with ⟨hm, _⟩ | ⟨hm, _⟩
          · rw [hm] at h1
            exfalso
            omega
          · rw [hm] at h1
            exact le_trans (min_le_right mc N) h1
        · intro hrb
          have h1 := ihh.2.1 (le_trans (min_le_left beta (min v w)) hrb)
          exact le_trans h1 (min_le_min hmcw (le_refl N))
        · intro hra hrb
          by_cases hr2 : r < min beta (min v w)
          · have heq := ihh.2.2 hra hr2
            rcases min_cases w N with ⟨hm, _⟩ | ⟨hm, _⟩
            · rw [hm] at heq
              exfalso
              omega
            · rw [hm] at heq
              have hmcN : mc ≥ N := by omega
              rw [min_eq_right hmcN, heq]
          · push_neg at hr2
            have hM_ge := ihh.2.1 hr2
            have hrvw : r = min v w := by
              rcases min_cases beta (min v w) with ⟨hm, _⟩ | ⟨hm, _⟩
              · rw [hm] at hr2
                exfalso
                omega
              · rw [hm] at hr2
                exact le_antisymm hr_le hr2
            have hrv : r = v := by
              rcases min_cases v w with ⟨hm, _⟩ | ⟨hm, _⟩
              · rw [hrvw, hm]
              · exfalso
                rw [hm] at hrvw
                omega
            have hNv : N ≤ r := hrv ▸ foldlMin_le_seed g cs v
            have h5 : r ≤ min mc N := le_trans hM_ge (min_le_min hmcw (le_refl N))
            have h6 : min mc N ≤ r := le_trans (min_le_right mc N) hNv
            exact le_antisymm h5 h6
      · push_neg at hwb
        have hwa : alpha < w := lt_of_lt_of_le ha (min_le_right v w)
        have hweq : w = mc := hfc.2.2 hwa hwb
        rw [← hweq]
        refine ⟨?_, ?_, ?_⟩
        · intro hra
          exact ihh.1 hra
        · intro hrb
          exact ihh.2.1 (le_trans (min_le_left beta (min v w)) hrb)
        · intro hra hrb
          by_cases hr2 : r < min beta (min v w)
          · exact ihh.2.2 hra hr2
          · push_neg at hr2
            have hM_ge := ihh.2.1 hr2
            have hrvw : r = min v w := by
              rcases min_cases beta (min v w) with ⟨hm, _⟩ | ⟨hm, _⟩
              · rw [hm] at hr2
                exfalso
                omega
              · rw [hm] at hr2
                exact le_antisymm hr_le hr2
            exact le_antisymm hM_ge (hrvw ▸ foldlMin_le_seed g cs (min v w))

theorem alphabeta_approx (d : Nat) :
    ∀ (n : Node) (b : Bool) (alpha beta : Int), alpha < beta →
      ABApprox (alphabeta n d alpha beta b) (minimaxSeeded n d b) alpha beta := by
  induction d with
  | zero =>
    intro n b alpha beta _
    simp only [alphabeta, minimaxSeeded]
    exact ⟨fun _ => le_refl _, fun _ => le_refl _, fun _ _ => rfl⟩
  | succ d ih =>
    intro n b alpha beta hab
    cases b
    · simp only [alphabeta, minimaxSeeded]
      exact abMinLoop_approx _ (fun c => minimaxSeeded c d true)
        (fun c a b2 h => ih c true a b2 h) _ alpha beta 10000 hab
    · simp only [alphabeta, minimaxSeeded]
      exact abMaxLoop_approx _ (fun c => minimaxSeeded c d false)
        (fun c a b2 h => ih c false a b2 h) _ alpha beta (-10000) hab

/-- Claim C1 (amended): deleting the alpha-beta pruning from the search
while keeping the running-value seeds -10000 and 10000 never changes the
returned value, whenever that unpruned value lies strictly inside the
initial window (in particular for the full i32 window the source uses).
Theorem for claim C1. -/
theorem C1_alphabeta_eq_seeded_minimax (n : Node) (d : Nat) (b : Bool) (alpha beta : Int)
    (h1 : alpha < minimaxSeeded n d b) (h2 : minimaxSeeded n d b < beta) :
    alphabeta n d alpha beta b = minimaxSeeded n d b := by
  have hab : alpha < beta := lt_trans h1 h2
  have ha := alphabeta_approx d n b alpha beta hab
  by_cases hr1 : alphabeta n d alpha beta b ≤ alpha
  · have := ha.1 hr1
    exfalso
    omega
  · by_cases hr2 : beta ≤ alphabeta n d alpha beta b
    · have := ha.2.1 hr2
      exfalso
      omega
    · push_neg at hr1 hr2
      exact ha.2.2 hr1 hr2

/-- Counterexample to claim C1 as stated: on a concrete state whose every
leaf is a terminal loss (health 0), the alpha-beta search returns its
-10000 seed while the plain unpruned minimax over the four direction
values returns the true leaf value -1000000000. -/
theorem C1_counterexample :
    alphabeta cnodeC1 1 I32_MIN I32_MAX true ≠ minimaxSpec cnodeC1 1 true := by
  decide

/-- Witness instantiating the amended C1 theorem at a concrete state,
depth, and window around its seeded-minimax value. -/
theorem C1_alphabeta_eq_seeded_minimax_witness :
    alphabeta cnodeC1 0 (-2000000000) 0 true = minimaxSeeded cnodeC1 0 true :=
  C1_alphabeta_eq_seeded_minimax cnodeC1 0 true (-2000000000) 0 (by decide) (by decide)

/-- Number of unowned cells of an ownership grid. -/
def unownedCount (b : DenseBoard) : Nat :=
  b.board.countP (fun v => v == MAGIC_NOT_OWNED)

theorem countP_set_le (p : Int → Bool) :
    ∀ (l : List Int) (i : Nat) (v : Int), p v = false →
      (l.set i v).countP p ≤ l.countP p := by
  intro l
  induction l with
  | nil => intro i v _; simp
  | cons a as ih =>
    intro i v hv
    cases i with
    | zero =>
      simp only [List.set_cons_zero, List.countP_cons, hv, Bool.false_eq_true, if_false]
      omega
    | succ i =>
      simp only [List.set_cons_succ, List.countP_cons]
      have := ih i v hv
      omega

theorem countP_set_lt (p : Int → Bool) :
    ∀ (l : List Int) (i : Nat) (v : Int), p v = false → i < l.length →
      p (l.getD i 0) = true → (l.set i v).countP p < l.countP p := by
  intro l
  induction l with
  | nil => intro i v _ h; simp at h
  | cons a as ih =>
    intro i v hv hi hp
    cases i with
    | zero =>
      simp only [List.getD_cons_zero] at hp
      simp [List.set_cons_zero, List.countP_cons, hv, hp]
    | succ i =>
      simp only [List.getD_cons_succ] at hp
      simp only [List.set_cons_succ, List.countP_cons]
      have := ih i v hv (by simpa using hi) hp
      omega

/-- Invariant of a voronoi expansion round relative to the old grid: the
unowned-cell count never grows, an untouched round leaves the grid equal,
and a round that set `not_done` strictly shrank the unowned count. -/
def RoundInv (owned : DenseBoard) (st : RoundState) : Prop :=
  unownedCount st.ownedNew ≤ unownedCount owned ∧
    (st.notDone = false → st.ownedNew = owned) ∧
    (st.notDone = true → unownedCount st.ownedNew < unownedCount owned)

theorem voronoiTestStep_inv (node : Node) (owned : DenseBoard) (c t : Coord)
    (st : RoundState) (h : RoundInv owned st) :
    RoundInv owned (voronoiTestStep node owned c st t) := by
  unfold voronoiTestStep
  split
  case isFalse => exact h
  case isTrue hcond =>
    obtain ⟨h1, h2, h3⟩ := h
    obtain ⟨hc1, hc2, hc3⟩ := hcond
    have hpv : (fun v => v == MAGIC_NOT_OWNED) (owned.get_coord t) = false :=
      beq_eq_false_iff_ne.mpr hc2
    have hle : unownedCount (st.ownedNew.set_coord c (owned.get_coord t)) ≤
        unownedCount st.ownedNew :=
      countP_set_le _ _ _ _ hpv
    refine ⟨le_trans hle h1, ?_, ?_⟩
    · intro hff
      simp at hff
    intro _
    by_cases hnd : st.notDone = true
    · exact lt_of_le_of_lt hle (h3 hnd)
    · have hfalse : st.notDone = false := by
        revert hnd
        cases st.notDone <;> simp
      have heq := h2 hfalse
      have hidx : denseIndex c.x c.y < owned.board.length := by
        by_contra hge
        push_neg at hge
        have h0 : owned.board.getD (denseIndex c.x c.y) 0 = 0 :=
          List.getD_eq_default _ _ hge
        rw [DenseBoard.get_coord, DenseBoard.get_xy, h0] at hc3
        exact absurd hc3 (by decide)
      have hp : (fun v => v == MAGIC_NOT_OWNED) (owned.board.getD (denseIndex c.x c.y) 0) =
          true := beq_iff_eq.mpr hc3
      rw [heq]
      exact countP_set_lt _ _ _ _ hpv hidx hp

theorem foldl_preserve_inv {α : Type} (P : RoundState → Prop)
    (step : RoundState → α → RoundState) (hstep : ∀ st a, P st → P (step st a)) :
    ∀ (l : List α) (st : RoundState), P st → P (l.foldl step st) := by
  intro l
  induction l with
  | nil => intro st h; exact h
  | cons a as ih => intro st h; exact ih _ (hstep st a h)

theorem voronoiRound_inv (node : Node) (owned : DenseBoard) (scores : List Int) :
    RoundInv owned (voronoiRound node owned scores) := by
  unfold voronoiRound
  have hbase : RoundInv owned { ownedNew := owned, scores := scores, notDone := false } := by
    refine ⟨le_refl _, fun _ => rfl, fun hff => ?_⟩
    simp at hff
  refine foldl_preserve_inv (RoundInv owned) _ ?_ interiorCells _ hbase
  intro st c hst
  exact foldl_preserve_inv (RoundInv owned) _
    (fun st2 t h2 => voronoiTestStep_inv node owned c t st2 h2) (voronoiTests c) st hst

theorem voronoiLoop_isSome (node : Node) :
    ∀ (fuel : Nat) (owned : DenseBoard) (scores : List Int),
      unownedCount owned < fuel → (voronoiLoop node owned scores fuel).isSome = true := by
  intro fuel
  induction fuel with
  | zero => intro owned scores h; exact absurd h (Nat.not_lt_zero _)
  | succ fuel ih =>
    intro owned scores h
    simp only [voronoiLoop]
    split
    case isTrue hnd =>
      have hlt := (voronoiRound_inv node owned scores).2.2 hnd
      exact ih _ _ (by omega)
    case isFalse => simp

theorem length_foldl_set_coord (l : List (Nat × Coord)) :
    ∀ b : DenseBoard,
      (l.foldl (fun ob p => ob.set_coord p.2 ((p.1 : Nat) : Int)) b).board.length =
        b.board.length := by
  induction l with
  | nil => intro b; rfl
  | cons p ps ih =>
    intro b
    rw [List.foldl_cons, ih]
    simp [DenseBoard.set_coord, DenseBoard.set_xy]

/-- Claim C9: the flood-fill terminates on every input state.  The
unowned-cell set never grows across a round, every round that keeps the
loop running strictly shrinks it, and it is bounded by the grid size, so
the loop always returns within the fuel budget.  Theorem for claim C9. -/
theorem C9_voronoi_terminates :
    (∀ (node : Node) (owned : DenseBoard) (scores : List Int),
        unownedCount (voronoiRound node owned scores).ownedNew ≤ unownedCount owned) ∧
    (∀ (node : Node) (owned : DenseBoard) (scores : List Int),
        (voronoiRound node owned scores).notDone = true →
          unownedCount (voronoiRound node owned scores).ownedNew < unownedCount owned) ∧
    ∀ node : Node,
      (voronoiLoop node (voronoiInitOwned node) (List.replicate PLAYER_COUNT 0)
          VORONOI_FUEL).isSome = true := by
  refine ⟨fun node owned scores => (voronoiRound_inv node owned scores).1,
    fun node owned scores h => (voronoiRound_inv node owned scores).2.2 h,
    fun node => voronoiLoop_isSome node VORONOI_FUEL _ _ ?_⟩
  have hlen : (voronoiInitOwned node).board.length =
      DENSE_BOARD_LENGTH * DENSE_BOARD_LENGTH := by
    unfold voronoiInitOwned
    rw [length_foldl_set_coord]
    simp [DenseBoard.init]
  have hcount : unownedCount (voronoiInitOwned node) ≤
      DENSE_BOARD_LENGTH * DENSE_BOARD_LENGTH := by
    rw [← hlen]
    exact List.countP_le_length _
  have : DENSE_BOARD_LENGTH * DENSE_BOARD_LENGTH < VORONOI_FUEL := by decide
  omega

/-- Witness instantiating the C9 theorem: growth bound and strict shrink
of a concrete continuing round, and termination on a concrete state. -/
theorem C9_voronoi_terminates_witness :
    unownedCount (voronoiRound cnodeC6 (voronoiInitOwned cnodeC6) [0, 0]).ownedNew ≤
        unownedCount (voronoiInitOwned cnodeC6) ∧
      unownedCount (voronoiRound cnodeC6 (voronoiInitOwned cnodeC6) [0, 0]).ownedNew <
        unownedCount (voronoiInitOwned cnodeC6) ∧
      (voronoiLoop cnodeC6 (voronoiInitOwned cnodeC6) (List.replicate PLAYER_COUNT 0)
          VORONOI_FUEL).isSome = true :=
  ⟨C9_voronoi_terminates.1 cnodeC6 (voronoiInitOwned cnodeC6) [0, 0],
    C9_voronoi_terminates.2.1 cnodeC6 (voronoiInitOwned cnodeC6) [0, 0] (by decide),
    C9_voronoi_terminates.2.2 cnodeC6⟩

/-- Number of cells that have been assigned an owner. -/
def ownedCellCount (b : DenseBoard) : Nat :=
  b.board.countP (fun v => !(v == MAGIC_NOT_OWNED))

/-- Claim C6 exhibit: `cnodeC6` is left-right mirror symmetric (board
stamps invariant under x maps-to 10 - x, heads mirrored images of each
other on the same row), yet the territory estimator returns strictly
different scores for the two agents (5 versus 7): the last-owned-neighbour
scan-order tie-break hands every contested midline cell to agent 1.
Evaluation of the code at the failing input for claim C6. -/
theorem C6_symmetric_state_unequal_scores :
    (∀ x y : Fin 11, cnodeC6.board.get_xy ((x : Nat) : Int) ((y : Nat) : Int) =
        cnodeC6.board.get_xy (10 - ((x : Nat) : Int)) ((y : Nat) : Int)) ∧
      (cnodeC6.head 1).x = 10 - (cnodeC6.head 0).x ∧
      (cnodeC6.head 1).y = (cnodeC6.head 0).y ∧
      voronoi cnodeC6 = [5, 7] :=
  ⟨by decide, by decide, by decide, by decide⟩

/-- Claim C10: one expansion round increments a score once per owned
orthogonal neighbour of a claimable cell while the cell gains only one
owner, so on the concrete state `cnodeC6` the sum of the returned scores
(12) strictly exceeds the number of distinct cells ever assigned an owner
(9: the two heads plus the seven claimed cells).  Theorem for claim C10. -/
theorem C10_scores_exceed_owned_cells :
    (voronoiFull cnodeC6).2.sum = 12 ∧
      ownedCellCount (voronoiFull cnodeC6).1 = 9 ∧
      (voronoiFull cnodeC6).2.sum > (ownedCellCount (voronoiFull cnodeC6).1 : Int) :=
  ⟨by decide, by decide, by decide⟩

/-- Counterexample to claim C2 as stated: in a concrete snapshot taken at
turn 5 the constructed board stores 0, not the turn value 5, at the head
cell of the first agent. -/
theorem C2_counterexample :
    (buildBoardFromSnapshot 5 [[⟨5, 5⟩, ⟨5, 6⟩], [⟨2, 2⟩, ⟨2, 3⟩]]).get_coord ⟨5, 5⟩ ≠ 5 := by
  decide

/-- Counterexample to claim C5 as stated: on the otherwise-empty board of
`cnodeC5` with the controlled head at (1,5), moving Left and then the
opposite move Right leaves the head at (0,5): the second move is a no-op
because the moved head is on the wall boundary. -/
theorem C5_counterexample :
    cnodeC5.board = addWalls (DenseBoard.init 0) ∧
      ((cnodeC5.apply_move 0 .left).apply_move 0 Direction.left.opposite).head 0 ≠
        cnodeC5.head 0 :=
  ⟨rfl, by decide⟩

theorem denseIndex_lt_of_inHalo (c : Coord) (hc : inHalo c) :
    denseIndex c.x c.y < DENSE_BOARD_LENGTH * DENSE_BOARD_LENGTH := by
  obtain ⟨h1, h2, h3, h4⟩ := hc
  unfold denseIndex DENSE_BOARD_LENGTH BOARD_SIZE
  omega

theorem denseIndex_inj (c c2 : Coord) (hc : inHalo c) (hc2 : inHalo c2)
    (h : denseIndex c.x c.y = denseIndex c2.x c2.y) : c = c2 := by
  obtain ⟨h1, h2, h3, h4⟩ := hc
  obtain ⟨g1, g2, g3, g4⟩ := hc2
  unfold denseIndex DENSE_BOARD_LENGTH BOARD_SIZE at h
  have hxy : c.x = c2.x ∧ c.y = c2.y := by omega
  cases c
  cases c2
  simp_all

/-- A board holding exactly one stamp per dense grid cell. -/
def WellSized (b : DenseBoard) : Prop :=
  b.board.length = DENSE_BOARD_LENGTH * DENSE_BOARD_LENGTH

theorem wellSized_init (v : Int) : WellSized (DenseBoard.init v) := by
  simp [WellSized, DenseBoard.init]

theorem wellSized_set_coord (b : DenseBoard) (c : Coord) (v : Int) (h : WellSized b) :
    WellSized (b.set_coord c v) := by
  simpa [WellSized, DenseBoard.set_coord, DenseBoard.set_xy] using h

theorem get_coord_set_coord_self (b : DenseBoard) (c : Coord) (v : Int)
    (hw : WellSized b) (hc : inHalo c) :
    (b.set_coord c v).get_coord c = v := by
  unfold DenseBoard.set_coord DenseBoard.set_xy DenseBoard.get_coord DenseBoard.get_xy
  apply getD_set_eq_of_lt
  rw [hw]
  exact denseIndex_lt_of_inHalo c hc

theorem get_coord_set_coord_ne (b : DenseBoard) (c c2 : Coord) (v : Int)
    (hc : inHalo c) (hc2 : inHalo c2) (hne : c2 ≠ c) :
    (b.set_coord c2 v).get_coord c = b.get_coord c := by
  unfold DenseBoard.set_coord DenseBoard.set_xy DenseBoard.get_coord DenseBoard.get_xy
  apply getD_set_of_ne
  intro heq
  exact hne (denseIndex_inj c2 c hc2 hc heq)

theorem inHalo_of_inInterior (c : Coord) (hc : inInterior c) : inHalo c := by
  obtain ⟨h1, h2, h3, h4⟩ := hc
  exact ⟨by omega, by omega, by omega, by omega⟩

/-- A write to a halo-addressable cell outside the interior does not
change any interior cell. -/
theorem get_coord_set_halo_cell (b : DenseBoard) (c w : Coord) (v : Int)
    (hc : inInterior c) (hwc : inHalo w) (hne : ¬ inInterior w) :
    (b.set_coord w v).get_coord c = b.get_coord c := by
  apply get_coord_set_coord_ne b c w v (inHalo_of_inInterior c hc) hwc
  intro he
  exact hne (he ▸ hc)

theorem foldl_get_coord_pres {α : Type} (c : Coord) :
    ∀ (l : List α) (F : DenseBoard → α → DenseBoard) (b : DenseBoard),
      (∀ (b2 : DenseBoard) (a : α), a ∈ l → WellSized b2 →
        (F b2 a).get_coord c = b2.get_coord c ∧ WellSized (F b2 a)) →
      WellSized b →
      (l.foldl F b).get_coord c = b.get_coord c ∧ WellSized (l.foldl F b) := by
  intro l
  induction l with
  | nil => intro F b _ hw; exact ⟨rfl, hw⟩
  | cons a as ih =>
    intro F b hstep hw
    rw [List.foldl_cons]
    have h1 := hstep b a (List.mem_cons_self a as) hw
    have h2 := ih F (F b a)
      (fun b2 a2 ha2 hw2 => hstep b2 a2 (List.mem_cons_of_mem a ha2) hw2) h1.2
    exact ⟨h2.1.trans h1.1, h2.2⟩

theorem snd_mem_of_mem_enumFrom {α : Type} :
    ∀ (l : List α) (n : Nat) (p : Nat × α), p ∈ l.enumFrom n → p.2 ∈ l := by
  intro l
  induction l with
  | nil => intro n p h; simp [List.enumFrom] at h
  | cons a as ih =>
    intro n p h
    simp only [List.enumFrom, List.mem_cons] at h
    rcases h with h | h
    · subst h
      simp
    · exact List.mem_cons_of_mem a (ih (n + 1) p h)

theorem getD_mem_enumFrom {α : Type} [Inhabited α] :
    ∀ (l : List α) (n i : Nat), i < l.length →
      (n + i, l.getD i default) ∈ l.enumFrom n := by
  intro l
  induction l with
  | nil => intro n i h; simp at h
  | cons a as ih =>
    intro n i h
    cases i with
    | zero => simp [List.enumFrom]
    | succ i =>
      have h2 := ih (n + 1) i (by simpa using h)
      simp only [List.enumFrom, List.mem_cons, List.getD_cons_succ]
      right
      have he : n + (i + 1) = (n + 1) + i := by omega
      rw [he]
      exact h2

theorem mem_enumFrom_spec {α : Type} [Inhabited α] :
    ∀ (l : List α) (n : Nat) (p : Nat × α), p ∈ l.enumFrom n →
      n ≤ p.1 ∧ p.1 - n < l.length ∧ l.getD (p.1 - n) default = p.2 := by
  intro l
  induction l with
  | nil => intro n p h; simp [List.enumFrom] at h
  | cons a as ih =>
    intro n p h
    simp only [List.enumFrom, List.mem_cons] at h
    rcases h with h | h
    · subst h
      refine ⟨le_refl n, by simp, by simp⟩
    · obtain ⟨g1, g2, g3⟩ := ih (n + 1) p h
      refine ⟨by omega, by simp only [List.length_cons]; omega, ?_⟩
      have hsub : p.1 - n = (p.1 - (n + 1)) + 1 := by omega
      rw [hsub]
      simpa using g3

theorem getD_mem_of_lt {α : Type} [Inhabited α] :
    ∀ (l : List α) (i : Nat), i < l.length → l.getD i default ∈ l := by
  intro l
  induction l with
  | nil => intro i h; simp at h
  | cons a as ih =>
    intro i h
    cases i with
    | zero => simp
    | succ i =>
      simp only [List.getD_cons_succ]
      exact List.mem_cons_of_mem a (ih i (by simpa using h))

theorem headD_mem_self {α : Type} (l : List α) (d : α) (h : l ≠ []) : l.headD d ∈ l := by
  cases l with
  | nil => exact absurd rfl h
  | cons a as => simp

theorem nodup_getD_ne {α : Type} [Inhabited α] :
    ∀ (l : List α), l.Nodup → ∀ (i j : Nat), i < l.length → j < l.length → i ≠ j →
      l.getD i default ≠ l.getD j default := by
  intro l
  induction l with
  | nil => intro _ i j hi _ _; simp at hi
  | cons a as ih =>
    intro hnd i j hi hj hij
    obtain ⟨hna, hnas⟩ := List.nodup_cons.mp hnd
    cases i with
    | zero =>
      cases j with
      | zero => exact absurd rfl hij
      | succ j =>
        simp only [List.getD_cons_zero, List.getD_cons_succ]
        intro heq
        exact hna (heq ▸ getD_mem_of_lt as j (by simpa using hj))
    | succ i =>
      cases j with
      | zero =>
        simp only [List.getD_cons_zero, List.getD_cons_succ]
        intro heq
        exact hna (heq ▸ getD_mem_of_lt as i (by simpa using hi))
      | succ j =>
        simp only [List.getD_cons_succ]
        exact ih hnas i j (by simpa using hi) (by simpa using hj) (by omega)

/-- A fold of cell writes in which the only writes landing on `c` carry
index `i` leaves `c` holding the value of the `(i, c)` write. -/
theorem foldl_set_get_unique (val : Nat × Coord → Int) (c : Coord) (i : Nat) (hc : inHalo c) :
    ∀ (ps : List (Nat × Coord)) (b : DenseBoard), WellSized b →
      (∀ q ∈ ps, inHalo q.2) → (i, c) ∈ ps →
      (∀ q ∈ ps, q.2 = c → q = (i, c)) →
      (ps.foldl (fun bb p => bb.set_coord p.2 (val p)) b).get_coord c = val (i, c) := by
  intro ps
  induction ps with
  | nil => intro b _ _ hmem _; simp at hmem
  | cons q rest ih =>
    intro b hw hhalo hmem huniq
    rw [List.foldl_cons]
    by_cases hqc : q.2 = c
    · have hqi : q = (i, c) := huniq q (List.mem_cons_self q rest) hqc
      by_cases hrest : (i, c) ∈ rest
      · exact ih (b.set_coord q.2 (val q)) (wellSized_set_coord b q.2 (val q) hw)
          (fun q2 hq2 => hhalo q2 (List.mem_cons_of_mem q hq2)) hrest
          (fun q2 hq2 hq2c => huniq q2 (List.mem_cons_of_mem q hq2) hq2c)
      · have hnone : ∀ q2 ∈ rest, q2.2 ≠ c := by
          intro q2 hq2 hq2c
          apply hrest
          have he := huniq q2 (List.mem_cons_of_mem q hq2) hq2c
          rw [← he]
          exact hq2
        have hpres := foldl_get_coord_pres c rest (fun bb p => bb.set_coord p.2 (val p))
          (b.set_coord q.2 (val q))
          (fun b2 a ha hw2 =>
            ⟨get_coord_set_coord_ne b2 c a.2 (val a) hc
                (hhalo a (List.mem_cons_of_mem q ha)) (hnone a ha),
              wellSized_set_coord b2 a.2 (val a) hw2⟩)
          (wellSized_set_coord b q.2 (val q) hw)
        rw [hpres.1, hqi]
        exact get_coord_set_coord_self b c (val (i, c)) hw hc
    · have hmem2 : (i, c) ∈ rest := by
        rcases List.mem_cons.mp hmem with h | h
        · exact absurd (by rw [← h]) hqc
        · exact h
      exact ih (b.set_coord q.2 (val q)) (wellSized_set_coord b q.2 (val q) hw)
        (fun q2 hq2 => hhalo q2 (List.mem_cons_of_mem q hq2)) hmem2
        (fun q2 hq2 hq2c => huniq q2 (List.mem_cons_of_mem q hq2) hq2c)

theorem stampBody_get_notmem (t : Int) (body : List Coord) (c : Coord) (b : DenseBoard)
    (hb : ∀ q ∈ body, inHalo q) (hc2 : inHalo c) (hnot : c ∉ body) (hw : WellSized b) :
    (stampBody t b body).get_coord c = b.get_coord c ∧ WellSized (stampBody t b body) := by
  unfold stampBody
  refine foldl_get_coord_pres c body.enum _ b ?_ hw
  intro b2 a ha hw2
  have ha2 : a.2 ∈ body := snd_mem_of_mem_enumFrom body 0 a (by simpa [List.enum] using ha)
  exact ⟨get_coord_set_coord_ne b2 c a.2 _ hc2 (hb a.2 ha2) (fun he => hnot (he ▸ ha2)),
    wellSized_set_coord _ _ _ hw2⟩

theorem stampBody_get_at_index (t : Int) (body : List Coord) (i : Nat) (b : DenseBoard)
    (hb : ∀ q ∈ body, inHalo q) (hi : i < body.length) (hnd : body.Nodup)
    (hw : WellSized b) :
    (stampBody t b body).get_coord (body.getD i default) =
      t + (body.length : Int) - (i : Int) := by
  unfold stampBody
  have hco : inHalo (body.getD i default) := hb _ (getD_mem_of_lt body i hi)
  refine foldl_set_get_unique (fun p => t + (body.length : Int) - (p.1 : Int))
    (body.getD i default) i hco body.enum b hw ?_ ?_ ?_
  · intro q hq
    exact hb q.2 (snd_mem_of_mem_enumFrom body 0 q (by simpa [List.enum] using hq))
  · have := getD_mem_enumFrom body 0 i hi
    simpa [List.enum] using this
  · intro q hq hqc
    obtain ⟨g1, g2, g3⟩ := mem_enumFrom_spec body 0 q (by simpa [List.enum] using hq)
    simp only [Nat.sub_zero] at g2 g3
    have hgd : body.getD q.1 default = body.getD i default := by rw [g3, hqc]
    have hq1 : q.1 = i := by
      by_contra hne
      exact nodup_getD_ne body hnd q.1 i g2 hi hne hgd
    exact Prod.ext hq1 hqc

theorem stampSnake_get_notmem (t : Int) (body : List Coord) (c : Coord) (b : DenseBoard)
    (hb : ∀ q ∈ body, inHalo q) (hc2 : inHalo c) (hnot : c ∉ body) (hbody : body ≠ [])
    (hw : WellSized b) :
    (stampSnakeFromSnapshot t b body).get_coord c = b.get_coord c ∧
      WellSized (stampSnakeFromSnapshot t b body) := by
  unfold stampSnakeFromSnapshot
  have h1 := stampBody_get_notmem t body c b hb hc2 hnot hw
  have hhd : body.headD default ∈ body := headD_mem_self body default hbody
  refine ⟨?_, wellSized_set_coord _ _ _ h1.2⟩
  rw [get_coord_set_coord_ne _ c (body.headD default) 0 hc2 (hb _ hhd)
    (fun he => hnot (he ▸ hhd)), h1.1]

theorem inHalo_mk (x y : Int) (h1 : -1 ≤ x) (h2 : x ≤ 11) (h3 : -1 ≤ y) (h4 : y ≤ 11) :
    inHalo ⟨x, y⟩ :=
  ⟨h1, h2, h3, h4⟩

theorem not_inInterior_mk (x y : Int) (h : x < 0 ∨ 10 < x ∨ y < 0 ∨ 10 < y) :
    ¬ inInterior ⟨x, y⟩ := by
  intro hin
  obtain ⟨g1, g2, g3, g4⟩ := hin
  dsimp only at g1 g2 g3 g4
  omega

theorem haloRange_bounds : ∀ x ∈ haloRange, -1 ≤ x ∧ x ≤ 11 := by
  decide

theorem addWalls_get_interior (b : DenseBoard) (c : Coord) (hw : WellSized b)
    (hc : inInterior c) :
    (addWalls b).get_coord c = b.get_coord c ∧ WellSized (addWalls b) := by
  unfold addWalls
  have hstep1 : ∀ (b2 : DenseBoard) (x : Int), x ∈ haloRange → WellSized b2 →
      ((b2.set_xy x (-1) I32_MAX).set_xy x (BOARD_SIZE : Int) I32_MAX).get_coord c =
          b2.get_coord c ∧
        WellSized ((b2.set_xy x (-1) I32_MAX).set_xy x (BOARD_SIZE : Int) I32_MAX) := by
    intro b2 x hx hw2
    obtain ⟨hx1, hx2⟩ := haloRange_bounds x hx
    have e1 : (b2.set_xy x (-1) I32_MAX).get_coord c = b2.get_coord c :=
      get_coord_set_halo_cell b2 c ⟨x, -1⟩ I32_MAX hc
        (inHalo_mk x (-1) hx1 hx2 (by omega) (by omega))
        (not_inInterior_mk x (-1) (by omega))
    have e2 : ((b2.set_xy x (-1) I32_MAX).set_xy x (BOARD_SIZE : Int) I32_MAX).get_coord c =
        (b2.set_xy x (-1) I32_MAX).get_coord c :=
      get_coord_set_halo_cell _ c ⟨x, (BOARD_SIZE : Int)⟩ I32_MAX hc
        (inHalo_mk x (BOARD_SIZE : Int) hx1 hx2 (by norm_num [BOARD_SIZE])
          (by norm_num [BOARD_SIZE]))
        (not_inInterior_mk x (BOARD_SIZE : Int) (by norm_num [BOARD_SIZE]))
    exact ⟨e2.trans e1,
      wellSized_set_coord _ ⟨x, (BOARD_SIZE : Int)⟩ _ (wellSized_set_coord _ ⟨x, -1⟩ _ hw2)⟩
  have hstep2 : ∀ (b2 : DenseBoard) (y : Int), y ∈ haloRange → WellSized b2 →
      ((b2.set_xy (-1) y I32_MAX).set_xy (BOARD_SIZE : Int) y I32_MAX).get_coord c =
          b2.get_coord c ∧
        WellSized ((b2.set_xy (-1) y I32_MAX).set_xy (BOARD_SIZE : Int) y I32_MAX) := by
    intro b2 y hy hw2
    obtain ⟨hy1, hy2⟩ := haloRange_bounds y hy
    have e1 : (b2.set_xy (-1) y I32_MAX).get_coord c = b2.get_coord c :=
      get_coord_set_halo_cell b2 c ⟨-1, y⟩ I32_MAX hc
        (inHalo_mk (-1) y (by omega) (by omega) hy1 hy2)
        (not_inInterior_mk (-1) y (by omega))
    have e2 : ((b2.set_xy (-1) y I32_MAX).set_xy (BOARD_SIZE : Int) y I32_MAX).get_coord c =
        (b2.set_xy (-1) y I32_MAX).get_coord c :=
      get_coord_set_halo_cell _ c ⟨(BOARD_SIZE : Int), y⟩ I32_MAX hc
        (inHalo_mk (BOARD_SIZE : Int) y (by norm_num [BOARD_SIZE])
          (by norm_num [BOARD_SIZE]) hy1 hy2)
        (not_inInterior_mk (BOARD_SIZE : Int) y (by norm_num [BOARD_SIZE]))
    exact ⟨e2.trans e1,
      wellSized_set_coord _ ⟨(BOARD_SIZE : Int), y⟩ _
        (wellSized_set_coord _ ⟨-1, y⟩ _ hw2)⟩
  have h1 := foldl_get_coord_pres c haloRange _ b (fun b2 a ha hw2 => hstep1 b2 a ha hw2) hw
  have h2 := foldl_get_coord_pres c haloRange _ _ (fun b2 a ha hw2 => hstep2 b2 a ha hw2) h1.2
  exact ⟨h2.1.trans h1.1, h2.2⟩

theorem foldl_wellSized {α : Type} :
    ∀ (l : List α) (F : DenseBoard → α → DenseBoard) (b : DenseBoard),
      (∀ (b2 : DenseBoard) (a : α), WellSized b2 → WellSized (F b2 a)) →
      WellSized b → WellSized (l.foldl F b) := by
  intro l
  induction l with
  | nil => intro F b _ hw; exact hw
  | cons a as ih =>
    intro F b hstep hw
    exact ih F (F b a) hstep (hstep b a hw)

theorem wellSized_stampBody (t : Int) (body : List Coord) (b : DenseBoard)
    (hw : WellSized b) : WellSized (stampBody t b body) := by
  unfold stampBody
  exact foldl_wellSized body.enum _ b (fun b2 a h => wellSized_set_coord _ _ _ h) hw

theorem headD_eq_getD_zero {α : Type} [Inhabited α] (l : List α) (h : l ≠ []) :
    l.headD default = l.getD 0 default := by
  cases l with
  | nil => exact absurd rfl h
  | cons a as => rfl

/-- Claim C2 (amended): the snapshot board construction stamps every body
segment at offset i with `turn + bodyLength - i`, and immediately
afterwards re-stamps the head cell with 0 (not with the turn value); in
particular for every two-snake snapshot with nonempty, interior, pairwise
disjoint bodies, the occupancy value stored at each agent head equals 0
after construction, and the non-head, non-duplicated segments keep their
`turn + bodyLength - i` stamps.  Theorem for claim C2. -/
theorem C2_snapshot_head_cells_zero (t : Int) (b0 b1 : List Coord)
    (h0ne : b0 ≠ []) (h1ne : b1 ≠ [])
    (hb0 : ∀ q ∈ b0, inInterior q) (hb1 : ∀ q ∈ b1, inInterior q)
    (hdisj : ∀ q ∈ b0, q ∉ b1) :
    (buildBoardFromSnapshot t [b0, b1]).get_coord (b0.headD default) = 0 ∧
      (buildBoardFromSnapshot t [b0, b1]).get_coord (b1.headD default) = 0 ∧
      (∀ i, 0 < i → i < b0.length → b0.Nodup →
        (buildBoardFromSnapshot t [b0, b1]).get_coord (b0.getD i default) =
          t + (b0.length : Int) - (i : Int)) ∧
      (∀ i, 0 < i → i < b1.length → b1.Nodup →
        (buildBoardFromSnapshot t [b0, b1]).get_coord (b1.getD i default) =
          t + (b1.length : Int) - (i : Int)) := by
  have hb0h : ∀ q ∈ b0, inHalo q := fun q hq => inHalo_of_inInterior q (hb0 q hq)
  have hb1h : ∀ q ∈ b1, inHalo q := fun q hq => inHalo_of_inInterior q (hb1 q hq)
  set B0 := stampSnakeFromSnapshot t (DenseBoard.init 0) b0 with hB0
  have hbb : buildBoardFromSnapshot t [b0, b1] =
      addWalls (stampSnakeFromSnapshot t B0 b1) := rfl
  have hwInit : WellSized (DenseBoard.init 0) := wellSized_init 0
  have hwS0 : WellSized (stampBody t (DenseBoard.init 0) b0) :=
    wellSized_stampBody t b0 _ hwInit
  have hwB0 : WellSized B0 := wellSized_set_coord _ _ _ hwS0
  have hwS1 : WellSized (stampBody t B0 b1) := wellSized_stampBody t b1 _ hwB0
  have hwB1 : WellSized (stampSnakeFromSnapshot t B0 b1) := wellSized_set_coord _ _ _ hwS1
  have hh0mem : b0.headD default ∈ b0 := headD_mem_self b0 default h0ne
  have hh1mem : b1.headD default ∈ b1 := headD_mem_self b1 default h1ne
  have hh0halo : inHalo (b0.headD default) := hb0h _ hh0mem
  have hh1halo : inHalo (b1.headD default) := hb1h _ hh1mem
  have hh0int : inInterior (b0.headD default) := hb0 _ hh0mem
  have hh1int : inInterior (b1.headD default) := hb1 _ hh1mem
  refine ⟨?_, ?_, ?_, ?_⟩
  · have hv0 : B0.get_coord (b0.headD default) = 0 :=
      get_coord_set_coord_self _ _ 0 hwS0 hh0halo
    have hpres1 := stampSnake_get_notmem t b1 (b0.headD default) B0 hb1h hh0halo
      (hdisj _ hh0mem) h1ne hwB0
    have hwall := addWalls_get_interior (stampSnakeFromSnapshot t B0 b1)
      (b0.headD default) hwB1 hh0int
    rw [hbb, hwall.1, hpres1.1, hv0]
  · have hv1 : (stampSnakeFromSnapshot t B0 b1).get_coord (b1.headD default) = 0 :=
      get_coord_set_coord_self _ _ 0 hwS1 hh1halo
    have hwall := addWalls_get_interior (stampSnakeFromSnapshot t B0 b1)
      (b1.headD default) hwB1 hh1int
    rw [hbb, hwall.1, hv1]
  · intro i hi0 hilen hnd
    have hcmem : b0.getD i default ∈ b0 := getD_mem_of_lt b0 i hilen
    have hchalo : inHalo (b0.getD i default) := hb0h _ hcmem
    have hcint : inInterior (b0.getD i default) := hb0 _ hcmem
    have hvstamp : (stampBody t (DenseBoard.init 0) b0).get_coord (b0.getD i default) =
        t + (b0.length : Int) - (i : Int) :=
      stampBody_get_at_index t b0 i _ hb0h hilen hnd hwInit
    have hne0 : b0.headD default ≠ b0.getD i default := by
      rw [headD_eq_getD_zero b0 h0ne]
      exact nodup_getD_ne b0 hnd 0 i (by omega) hilen (by omega)
    have hv0 : B0.get_coord (b0.getD i default) =
        t + (b0.length : Int) - (i : Int) := by
      rw [hB0]
      unfold stampSnakeFromSnapshot
      rw [get_coord_set_coord_ne _ _ _ 0 hchalo hh0halo hne0, hvstamp]
    have hpres1 := stampSnake_get_notmem t b1 (b0.getD i default) B0 hb1h hchalo
      (hdisj _ hcmem) h1ne hwB0
    have hwall := addWalls_get_interior (stampSnakeFromSnapshot t B0 b1)
      (b0.getD i default) hwB1 hcint
    rw [hbb, hwall.1, hpres1.1, hv0]
  · intro i hi0 hilen hnd
    have hcmem : b1.getD i default ∈ b1 := getD_mem_of_lt b1 i hilen
    have hchalo : inHalo (b1.getD i default) := hb1h _ hcmem
    have hcint : inInterior (b1.getD i default) := hb1 _ hcmem
    have hvstamp : (stampBody t B0 b1).get_coord (b1.getD i default) =
        t + (b1.length : Int) - (i : Int) :=
      stampBody_get_at_index t b1 i _ hb1h hilen hnd hwB0
    have hne1 : b1.headD default ≠ b1.getD i default := by
      rw [headD_eq_getD_zero b1 h1ne]
      exact nodup_getD_ne b1 hnd 0 i (by omega) hilen (by omega)
    have hv1 : (stampSnakeFromSnapshot t B0 b1).get_coord (b1.getD i default) =
        t + (b1.length : Int) - (i : Int) := by
      unfold stampSnakeFromSnapshot
      rw [get_coord_set_coord_ne _ _ _ 0 hchalo hh1halo hne1, hvstamp]
    have hwall := addWalls_get_interior (stampSnakeFromSnapshot t B0 b1)
      (b1.getD i default) hwB1 hcint
    rw [hbb, hwall.1, hv1]

/-- Witness instantiating the amended C2 theorem at the concrete snapshot
of the counterexample: both head cells hold 0 and the second segment of
each snake holds `turn + length - 1`. -/
theorem C2_snapshot_head_cells_zero_witness :
    (buildBoardFromSnapshot 5 [[⟨5, 5⟩, ⟨5, 6⟩], [⟨2, 2⟩, ⟨2, 3⟩]]).get_coord ⟨5, 5⟩ = 0 ∧
      (buildBoardFromSnapshot 5 [[⟨5, 5⟩, ⟨5, 6⟩], [⟨2, 2⟩, ⟨2, 3⟩]]).get_coord ⟨2, 2⟩ = 0 ∧
      (buildBoardFromSnapshot 5 [[⟨5, 5⟩, ⟨5, 6⟩], [⟨2, 2⟩, ⟨2, 3⟩]]).get_coord ⟨5, 6⟩ =
        5 + 2 - 1 ∧
      (buildBoardFromSnapshot 5 [[⟨5, 5⟩, ⟨5, 6⟩], [⟨2, 2⟩, ⟨2, 3⟩]]).get_coord ⟨2, 3⟩ =
        5 + 2 - 1 := by
  have h := C2_snapshot_head_cells_zero 5 [⟨5, 5⟩, ⟨5, 6⟩] [⟨2, 2⟩, ⟨2, 3⟩]
    (by decide) (by decide) (by decide) (by decide) (by decide)
  refine ⟨h.1, h.2.1, ?_, ?_⟩
  · have := h.2.2.1 1 (by decide) (by decide) (by decide)
    simpa using this
  · have := h.2.2.2 1 (by decide) (by decide) (by decide)
    simpa using this
